import Mathlib

/- Verification of the customer-triage dashboard pipeline.

   Shallow embedding of the Dashboard component: `summarize`,
   `analyzeSentiment`, `routeDecision`, `updateTicket`, `runPipeline`,
   `addTicket` and `runAll`.  JavaScript strings are modelled as `List Char`,
   optional (possibly-`undefined`) fields as `Option`.  The `Ticket` record
   shape is taken from its uses in the component and from the seed data in
   `initialTickets.ts` (fields `id`, `text`, `stage` plus the four optional
   derived fields). -/

/-- Whitespace test for the JavaScript regexp class `\s` (tab through
carriage return, space, NBSP, the Unicode space separators, line/paragraph
separators, narrow NBSP, medium mathematical space, ideographic space and
the BOM). -/
def isWs (c : Char) : Bool :=
  (9 ≤ c.val && c.val ≤ 13) || c.val == 32 || c.val == 160 || c.val == 0x1680 ||
  (0x2000 ≤ c.val && c.val ≤ 0x200A) || c.val == 0x2028 || c.val == 0x2029 ||
  c.val == 0x202F || c.val == 0x205F || c.val == 0x3000 || c.val == 0xFEFF

theorem len_dropWhile_le {α : Type} (p : α → Bool) :
    ∀ l : List α, (l.dropWhile p).length ≤ l.length
  | [] => Nat.le_refl _
  | a :: l => by
    rw [List.dropWhile_cons]
    split
    · exact Nat.le_trans (len_dropWhile_le p l) (Nat.le_succ _)
    · exact Nat.le_refl _

/-- Scanner for `collapseWs`; the flag records whether the previous
character was whitespace, i.e. whether we are inside a whitespace run that
has already emitted its single replacement space. -/
def collapseAux : Bool → List Char → List Char
  | _, [] => []
  | inRun, c :: cs =>
    if isWs c then
      if inRun then collapseAux true cs else ' ' :: collapseAux true cs
    else c :: collapseAux false cs

/-- Model of `text.replace(/\s+/g, " ")`: every maximal run of whitespace
characters is replaced by a single space. -/
def collapseWs (l : List Char) : List Char := collapseAux false l

/-- Proof-side reformulation of `collapseWs` that consumes one whole
whitespace run per step. -/
def collapseRuns : List Char → List Char
  | [] => []
  | c :: cs =>
    if isWs c then ' ' :: collapseRuns (cs.dropWhile isWs)
    else c :: collapseRuns cs
termination_by l => l.length
decreasing_by
  · simp only [List.length_cons]
    exact Nat.lt_succ_of_le (len_dropWhile_le isWs cs)
  · simp only [List.length_cons]
    exact Nat.lt_succ_of_le (Nat.le_refl _)

/-- Model of `String.prototype.trimStart`. -/
def trimStart (l : List Char) : List Char := l.dropWhile isWs

/-- Model of `String.prototype.trimEnd`. -/
def trimEnd (l : List Char) : List Char := (l.reverse.dropWhile isWs).reverse

/-- Model of `String.prototype.trim` (drop whitespace at both ends). -/
def jsTrim (l : List Char) : List Char := trimEnd (trimStart l)

/-- The ellipsis marker `"..."` appended by the summarizer. -/
def dots : List Char := ['.', '.', '.']

/-- The summarizer's normalization step:
`text.replace(/\s+/g, " ").trim()`. -/
def normalizeWs (text : List Char) : List Char := jsTrim (collapseWs text)

/-- The `summarize` stage function:
`const s = text.replace(/\s+/g, " ").trim(); if (s.length > 120) return s.slice(0, 120) + "..."; return s;` -/
def summarize (text : List Char) : List Char :=
  let s := normalizeWs text
  if 120 < s.length then s.take 120 ++ dots else s

/-- Specification-side view of the normalization: the maximal runs of
non-whitespace characters of the input, in order.  Used to state that the
code's normalization "collapses every run of internal whitespace to a
single space and trims leading/trailing whitespace". -/
def wsWords : List Char → List (List Char)
  | [] => []
  | c :: cs =>
    if isWs c then wsWords cs
    else (c :: cs.takeWhile (fun x => !isWs x)) :: wsWords (cs.dropWhile (fun x => !isWs x))
termination_by l => l.length
decreasing_by
  · simp only [List.length_cons]
    exact Nat.lt_succ_of_le (Nat.le_refl _)
  · simp only [List.length_cons]
    exact Nat.lt_succ_of_le (len_dropWhile_le _ cs)

/-- Specification-side view: join words with single spaces. -/
def joinWords : List (List Char) → List Char
  | [] => []
  | [w] => w
  | w :: ws => w ++ ' ' :: joinWords ws

/-- Specification-side normalization, following the spec's words: collapse
every whitespace run to one space and trim the ends, i.e. the words of the
input joined by single spaces. -/
def specNormalize (text : List Char) : List Char := joinWords (wsWords text)

/-- The apostrophe character (U+0027), built without an apostrophe literal. -/
def apos : Char := Char.ofNat 39

/-- The outer "negative" keyword alternation of `analyzeSentiment`:
`/(can't|cannot|not|fail|error|unable|broken|refund|angry|threaten)/`. -/
def negKws : List (List Char) :=
  ["can".data ++ apos :: "t".data, "cannot".data, "not".data, "fail".data,
   "error".data, "unable".data, "broken".data, "refund".data, "angry".data,
   "threaten".data]

/-- The threat-to-leave alternation:
`/(threaten|move to another provider|i'll move|i will move)/`. -/
def threatKws : List (List Char) :=
  ["threaten".data, "move to another provider".data,
   "i".data ++ apos :: "ll move".data, "i will move".data]

/-- The inability/failure alternation: `/(can't|cannot|unable|fail|error)/`. -/
def inabilityKws : List (List Char) :=
  ["can".data ++ apos :: "t".data, "cannot".data, "unable".data,
   "fail".data, "error".data]

/-- The gratitude/positive alternation: `/(thanks|thank you|good|safe|arrived)/`. -/
def gratKws : List (List Char) :=
  ["thanks".data, "thank you".data, "good".data, "safe".data, "arrived".data]

/-- `regex.test(s)` for an alternation of literal words: does any of the
patterns occur as a contiguous substring of `l`? -/
def testAny (pats : List (List Char)) (l : List Char) : Bool :=
  pats.any (fun p => decide (p <:+: l))

/-- Model of `summary.toLowerCase()` (character-wise lowering; the patterns
involved are all ASCII). -/
def lowerJs (l : List Char) : List Char := l.map Char.toLower

/-- The `analyzeSentiment` stage function: an ordered decision list over the
lower-cased summary.  Outer negative-keyword rule first (with threat, then
inability sub-cases), then the gratitude rule, then the default bucket. -/
def analyzeSentiment (summary : List Char) : List Char × List Char :=
  let lower := lowerJs summary
  if testAny negKws lower then
    if testAny threatKws lower then ("angry".data, "critical".data)
    else if testAny inabilityKws lower then ("frustrated".data, "high".data)
    else ("negative".data, "high".data)
  else if testAny gratKws lower then ("neutral".data, "low".data)
  else ("neutral".data, "medium".data)

/-- The `routeDecision` stage function.  Its JS parameter fields are
optional, hence `Option` arguments; `undefined === "critical"` is false. -/
def routeDecision (urgency sentiment : Option (List Char)) : List Char :=
  if urgency = some ("critical".data) ∨ urgency = some ("high".data) ∨
     sentiment = some ("angry".data)
  then "escalate_to_human".data
  else "normal_queue".data

/-- A ticket record.  Field shape from the component's uses and the seed
data: mandatory `id`, `text`, `stage`, and four optional derived fields. -/
structure Ticket where
  id : Int
  text : List Char
  stage : List Char
  summary : Option (List Char) := none
  sentiment : Option (List Char) := none
  urgency : Option (List Char) := none
  action : Option (List Char) := none
deriving DecidableEq, Repr

/-- A `Partial<Ticket>`: each field optionally present.  A key present with
value `undefined` is not representable (never used by the component). -/
structure TicketPatch where
  id : Option Int := none
  text : Option (List Char) := none
  stage : Option (List Char) := none
  summary : Option (List Char) := none
  sentiment : Option (List Char) := none
  urgency : Option (List Char) := none
  action : Option (List Char) := none
deriving DecidableEq, Repr

/-- Merge of one field under JS object spread `{...t, ...patch}`: a key
present in the patch wins, otherwise the ticket's value is kept. -/
def mergeField {α : Type} (pv : Option α) (tv : Option α) : Option α :=
  match pv with
  | some v => some v
  | none => tv

/-- The JS spread `{ ...t, ...patch }` applied to a ticket. -/
def applyPatch (t : Ticket) (p : TicketPatch) : Ticket where
  id := p.id.getD t.id
  text := p.text.getD t.text
  stage := p.stage.getD t.stage
  summary := mergeField p.summary t.summary
  sentiment := mergeField p.sentiment t.sentiment
  urgency := mergeField p.urgency t.urgency
  action := mergeField p.action t.action

/-- The `updateTicket` store operation:
`prev.map((t) => (t.id === id ? { ...t, ...patch } : t))`. -/
def updateTicket (tickets : List Ticket) (id : Int) (p : TicketPatch) : List Ticket :=
  tickets.map (fun t => if t.id = id then applyPatch t p else t)

/-- Ticket resolution at the head of `runPipeline`:
`ticketOverride || tickets.find((t) => t.id === id)` (an object is always
truthy, so a supplied override wins). -/
def resolveTicket (tickets : List Ticket) (id : Int) (override : Option Ticket) :
    Option Ticket :=
  match override with
  | some t => some t
  | none => tickets.find? (fun t => decide (t.id = id))

/-- The `runPipeline` orchestrator, straight-line as in the source: resolve
the ticket (silently aborting when unresolvable), then alternately patch the
in-progress stage marker and the freshly computed stage result. -/
def runPipeline (tickets : List Ticket) (id : Int) (override : Option Ticket) :
    List Ticket :=
  match resolveTicket tickets id override with
  | none => tickets
  | some ticket =>
    let s1 := updateTicket tickets id { stage := some ("summarized".data) }
    let summary := summarize ticket.text
    let s2 := updateTicket s1 id { summary := some summary }
    let s3 := updateTicket s2 id { stage := some ("sentiment".data) }
    let sent := analyzeSentiment summary
    let s4 := updateTicket s3 id { sentiment := some sent.1, urgency := some sent.2 }
    let s5 := updateTicket s4 id { stage := some ("routed".data) }
    let action := routeDecision (some sent.2) (some sent.1)
    updateTicket s5 id { action := some action }

/-- The sequence of store patches one `runPipeline` run performs for a
resolved ticket, in program order. -/
def pipelineTrace (ticket : Ticket) (id : Int) : List (Int × TicketPatch) :=
  let summary := summarize ticket.text
  let sent := analyzeSentiment summary
  let action := routeDecision (some sent.2) (some sent.1)
  [(id, { stage := some ("summarized".data) }),
   (id, { summary := some summary }),
   (id, { stage := some ("sentiment".data) }),
   (id, { sentiment := some sent.1, urgency := some sent.2 }),
   (id, { stage := some ("routed".data) }),
   (id, { action := some action })]

/-- One store patch event applied to the store. -/
def applyEvt (tickets : List Ticket) (e : Int × TicketPatch) : List Ticket :=
  updateTicket tickets e.1 e.2

/-- The net effect of a completed pipeline run on the ticket record itself:
the run's six patches folded over the ticket. -/
def processedTicket (t : Ticket) : Ticket :=
  (pipelineTrace t t.id).foldl (fun x e => applyPatch x e.2) t

/-- JS falsiness of an optional string field (`!t.summary`): true for a
missing field and for the empty string. -/
def isFalsyStr : Option (List Char) → Bool
  | none => true
  | some s => s.isEmpty

/-- The ids for which `runAll` invokes the orchestrator:
`tickets.forEach((t) => { if (!t.summary || !t.action) runPipeline(t.id); })`. -/
def runAllInvokes (tickets : List Ticket) : List Int :=
  (tickets.filter (fun t => isFalsyStr t.summary || isFalsyStr t.action)).map
    (fun t => t.id)

/-- The component's view of the store under React `useState`: `rendered` is
the `tickets` value captured by the callbacks of the latest render, while
`queued` is the current state after all pending functional
`setTickets((prev) => ...)` updates.  A re-render commits `queued` into
`rendered`. -/
structure DashState where
  rendered : List Ticket
  queued : List Ticket
deriving DecidableEq, Repr

/-- Id allocation in `addTicket`:
`tickets.length ? Math.max(...tickets.map((t) => t.id)) + 1 : 1`, reading
the render-time `tickets` snapshot. -/
def allocId (tickets : List Ticket) : Int :=
  match tickets.map (fun t => t.id) with
  | [] => 1
  | x :: xs => xs.foldl max x + 1

/-- The `addTicket` ingestion entry point: compute the id from the rendered
snapshot, prepend the new ticket through the functional updater.  The
deferred `setTimeout(() => runPipeline(id, newTicket), 150)` run is modelled
separately by `runPipeline`. -/
def addTicket (d : DashState) (text : List Char) : DashState :=
  let id := allocId d.rendered
  let newTicket : Ticket := { id := id, text := text, stage := "uploaded".data }
  { d with queued := newTicket :: d.queued }

/-- A React re-render: the committed state becomes the snapshot the next
callbacks close over. -/
def renderDash (d : DashState) : DashState :=
  { rendered := d.queued, queued := d.queued }

/-- A sample ticket constructor used by concrete witnesses. -/
def tk (n : Int) (txt : List Char) : Ticket :=
  { id := n, text := txt, stage := "uploaded".data }

theorem testAny_iff (pats : List (List Char)) (l : List Char) :
    testAny pats l = true ↔ ∃ p ∈ pats, p <:+: l := by
  simp [testAny]

theorem updateTicket_length (s : List Ticket) (id : Int) (p : TicketPatch) :
    (updateTicket s id p).length = s.length := by
  simp [updateTicket]

theorem get_map_nat {α β : Type} (f : α → β) :
    ∀ (l : List α) (i : Nat) (h : i < l.length) (h2 : i < (l.map f).length),
      (l.map f).get ⟨i, h2⟩ = f (l.get ⟨i, h⟩)
  | _ :: _, 0, _, _ => rfl
  | _ :: l, i + 1, h, h2 =>
    get_map_nat f l i (Nat.lt_of_succ_lt_succ h) (Nat.lt_of_succ_lt_succ h2)

theorem updateTicket_get (s : List Ticket) (id : Int) (p : TicketPatch)
    (i : Nat) (h : i < s.length) (h2 : i < (updateTicket s id p).length) :
    (updateTicket s id p).get ⟨i, h2⟩ =
      if (s.get ⟨i, h⟩).id = id then applyPatch (s.get ⟨i, h⟩) p
      else s.get ⟨i, h⟩ :=
  get_map_nat _ s i h h2

theorem updateTicket_no_match (s : List Ticket) (id : Int) (p : TicketPatch)
    (h : ∀ t ∈ s, t.id ≠ id) : updateTicket s id p = s := by
  induction s with
  | nil => rfl
  | cons a tl ih =>
    simp only [updateTicket, List.map_cons]
    rw [if_neg (h a (List.mem_cons_self a tl))]
    have := ih (fun t ht => h t (List.mem_cons_of_mem _ ht))
    simp only [updateTicket] at this
    rw [this]

/-- C7: for every urgency/sentiment pair, the Router returns
`escalate_to_human` if and only if urgency is `critical` or `high` or
sentiment is `angry`, and `normal_queue` for every other combination. -/
theorem c7_router_escalate_iff (u s : Option (List Char)) :
    (routeDecision u s = "escalate_to_human".data ↔
      (u = some ("critical".data) ∨ u = some ("high".data) ∨
        s = some ("angry".data))) ∧
    (¬(u = some ("critical".data) ∨ u = some ("high".data) ∨
        s = some ("angry".data)) →
      routeDecision u s = "normal_queue".data) := by
  by_cases h : (u = some ("critical".data) ∨ u = some ("high".data) ∨
      s = some ("angry".data))
  · refine ⟨⟨fun _ => h, fun _ => ?_⟩, fun hc => absurd h hc⟩
    simp [routeDecision, h]
  · have hval : routeDecision u s = "normal_queue".data := by
      simp [routeDecision, h]
    refine ⟨⟨fun he => ?_, fun hc => absurd hc h⟩, fun _ => hval⟩
    rw [hval] at he
    exact absurd he (by decide)

theorem c7_router_escalate_iff_witness :
    routeDecision (some ("low".data)) (some ("neutral".data)) =
      "normal_queue".data :=
  (c7_router_escalate_iff (some ("low".data)) (some ("neutral".data))).2
    (by decide)

/-- C10: the classifier's keyword tests are substring matches on the
lower-cased summary, not word-boundary matches: any summary containing
"another" contains the substring "not" and lands in the negative rule
group; in particular "Please send another invoice" classifies as
`(negative, high)` and routes to `escalate_to_human`. -/
theorem c10_substring_not_word_boundary (s : List Char)
    (h : "another".data <:+: s) :
    testAny negKws (lowerJs s) = true ∧
    analyzeSentiment s ∈
      [("angry".data, "critical".data), ("frustrated".data, "high".data),
       ("negative".data, "high".data)] ∧
    analyzeSentiment ("Please send another invoice".data) =
      ("negative".data, "high".data) ∧
    routeDecision (some ("high".data)) (some ("negative".data)) =
      "escalate_to_human".data := by
  have hlow : "another".data <:+: lowerJs s := by
    have hm := h.map Char.toLower
    have e : ("another".data).map Char.toLower = "another".data := by decide
    rw [e] at hm
    exact hm
  have hnot : "not".data <:+: lowerJs s :=
    List.IsInfix.trans (by decide) hlow
  have hneg : testAny negKws (lowerJs s) = true :=
    (testAny_iff _ _).2 ⟨"not".data, by decide, hnot⟩
  refine ⟨hneg, ?_, by decide, by decide⟩
  simp only [analyzeSentiment, hneg, if_true]
  split
  · simp
  · split <;> simp

theorem c10_substring_not_word_boundary_witness :
    ("another".data <:+: "Please send another invoice".data) ∧
    analyzeSentiment ("Please send another invoice".data) ∈
      [("angry".data, "critical".data), ("frustrated".data, "high".data),
       ("negative".data, "high".data)] :=
  ⟨by decide,
   (c10_substring_not_word_boundary ("Please send another invoice".data)
     (by decide)).2.1⟩

/-- C3 as stated is false: the summary "i'll move thanks" contains a
threat-to-leave pattern and a gratitude pattern, yet classifies as
`(neutral, low)` rather than `(angry, critical)`, because the threat
sub-case is only reached when the outer negative-keyword rule matched. -/
theorem c3_threat_gratitude_counterexample :
    testAny threatKws (lowerJs ("i".data ++ apos :: "ll move thanks".data)) =
      true ∧
    testAny gratKws (lowerJs ("i".data ++ apos :: "ll move thanks".data)) =
      true ∧
    analyzeSentiment ("i".data ++ apos :: "ll move thanks".data) ≠
      ("angry".data, "critical".data) ∧
    analyzeSentiment ("i".data ++ apos :: "ll move thanks".data) =
      ("neutral".data, "low".data) := by
  refine ⟨by decide, by decide, by decide, by decide⟩

/-- C3 amended: a summary whose lower-casing contains a threat pattern and a
gratitude pattern classifies as `(angry, critical)` provided it also
contains one of the outer negative-rule keywords (automatic for the threat
phrases "threaten" and "move to another provider", but not for "i'll move"
or "i will move"). -/
theorem c3_threat_gratitude_amended (s : List Char)
    (hthreat : testAny threatKws (lowerJs s) = true)
    (_hgrat : testAny gratKws (lowerJs s) = true)
    (hneg : testAny negKws (lowerJs s) = true) :
    analyzeSentiment s = ("angry".data, "critical".data) := by
  simp [analyzeSentiment, hneg, hthreat]

theorem c3_threat_gratitude_amended_witness :
    analyzeSentiment ("threaten, but thanks".data) =
      ("angry".data, "critical".data) :=
  c3_threat_gratitude_amended ("threaten, but thanks".data)
    (by decide) (by decide) (by decide)

/-- C2 as stated is false: two `add` calls in rapid succession (no re-render
in between) both compute the id from the same rendered snapshot.  Starting
from a store holding only ticket 1, both calls assign id 2: the second
call's id is not strictly greater than every id present at the time of the
call, and the store ends with duplicate ids `[2, 2, 1]`. -/
theorem c2_rapid_add_counterexample :
    allocId
        (addTicket { rendered := [tk 1 ("a".data)], queued := [tk 1 ("a".data)] }
          ("b".data)).rendered = 2 ∧
    (2 : Int) ∈
      ((addTicket { rendered := [tk 1 ("a".data)], queued := [tk 1 ("a".data)] }
          ("b".data)).queued.map (fun t => t.id)) ∧
    ((addTicket
        (addTicket { rendered := [tk 1 ("a".data)], queued := [tk 1 ("a".data)] }
          ("b".data))
        ("c".data)).queued.map (fun t => t.id)) = [2, 2, 1] := by
  refine ⟨by decide, by decide, by decide⟩

theorem le_foldl_max_init : ∀ (xs : List Int) (x : Int), x ≤ xs.foldl max x
  | [], _ => le_refl _
  | a :: xs, x =>
    le_trans (le_max_left x a) (le_foldl_max_init xs (max x a))

theorem le_foldl_max_mem :
    ∀ (xs : List Int) (x y : Int), y ∈ xs → y ≤ xs.foldl max x
  | a :: xs, x, y, h => by
    rcases List.mem_cons.1 h with h1 | h2
    · subst h1
      exact le_trans (le_max_right x y) (le_foldl_max_init xs (max x y))
    · exact le_foldl_max_mem xs (max x a) y h2

/-- C2 amended: when a call observes the latest store state (a re-render has
committed every pending insertion, so the rendered snapshot equals the
current store), `add` places at the front a ticket whose id is `allocId` of
the store — one greater than the current maximum, or 1 if empty — which is
strictly greater than every id already present.  Calls in rapid succession
within one render cycle instead compute the id from the stale snapshot and
can duplicate ids. -/
theorem c2_add_fresh_snapshot_amended (d : DashState) (text : List Char)
    (h : d.rendered = d.queued) :
    ((addTicket d text).queued.head?.map (fun t => t.id) =
      some (allocId d.queued)) ∧
    ∀ t ∈ d.queued, t.id < allocId d.queued := by
  constructor
  · simp [addTicket, h]
  · intro t ht
    unfold allocId
    cases hm : d.queued.map (fun t => t.id) with
    | nil =>
      rw [List.map_eq_nil_iff] at hm
      rw [hm] at ht
      exact absurd ht (List.not_mem_nil t)
    | cons x xs =>
      have hmem : t.id ∈ x :: xs := by
        rw [← hm]
        exact List.mem_map_of_mem _ ht
      rw [Int.lt_add_one_iff]
      rcases List.mem_cons.1 hmem with h1 | h2
      · rw [h1]
        exact le_foldl_max_init xs x
      · exact le_foldl_max_mem xs x t.id h2

theorem c2_add_fresh_snapshot_amended_witness :
    ((addTicket { rendered := [tk 1 ("a".data)], queued := [tk 1 ("a".data)] }
        ("b".data)).queued.head?.map (fun t => t.id) =
      some (allocId [tk 1 ("a".data)])) ∧
    (tk 1 ("a".data)).id < allocId [tk 1 ("a".data)] :=
  ⟨(c2_add_fresh_snapshot_amended
      { rendered := [tk 1 ("a".data)], queued := [tk 1 ("a".data)] }
      ("b".data) rfl).1,
   (c2_add_fresh_snapshot_amended
      { rendered := [tk 1 ("a".data)], queued := [tk 1 ("a".data)] }
      ("b".data) rfl).2 (tk 1 ("a".data)) (by decide)⟩

/-- C9: `patch(id, fields)` merges exactly the given fields into every
ticket whose id matches, leaves all other fields of that ticket and all
other tickets unchanged in place (so the store's ordering and length are
preserved), and is a no-op raising no error when no ticket matches. -/
theorem c9_patch_merge_frame (s : List Ticket) (id : Int) (p : TicketPatch) :
    (updateTicket s id p).length = s.length ∧
    (∀ i (h : i < s.length) (h2 : i < (updateTicket s id p).length),
      (updateTicket s id p).get ⟨i, h2⟩ =
        if (s.get ⟨i, h⟩).id = id then applyPatch (s.get ⟨i, h⟩) p
        else s.get ⟨i, h⟩) ∧
    ((∀ t ∈ s, t.id ≠ id) → updateTicket s id p = s) ∧
    (∀ t : Ticket,
      (p.id = none → (applyPatch t p).id = t.id) ∧
      (p.text = none → (applyPatch t p).text = t.text) ∧
      (p.stage = none → (applyPatch t p).stage = t.stage) ∧
      (p.summary = none → (applyPatch t p).summary = t.summary) ∧
      (p.sentiment = none → (applyPatch t p).sentiment = t.sentiment) ∧
      (p.urgency = none → (applyPatch t p).urgency = t.urgency) ∧
      (p.action = none → (applyPatch t p).action = t.action) ∧
      (∀ v, p.stage = some v → (applyPatch t p).stage = v) ∧
      (∀ v, p.summary = some v → (applyPatch t p).summary = some v) ∧
      (∀ v, p.sentiment = some v → (applyPatch t p).sentiment = some v) ∧
      (∀ v, p.urgency = some v → (applyPatch t p).urgency = some v) ∧
      (∀ v, p.action = some v → (applyPatch t p).action = some v)) := by
  refine ⟨updateTicket_length s id p, updateTicket_get s id p,
    updateTicket_no_match s id p, ?_⟩
  intro t
  refine ⟨fun h => ?_, fun h => ?_, fun h => ?_, fun h => ?_, fun h => ?_,
    fun h => ?_, fun h => ?_, fun v hv => ?_, fun v hv => ?_, fun v hv => ?_,
    fun v hv => ?_, fun v hv => ?_⟩ <;>
    simp_all [applyPatch, mergeField]

theorem c9_patch_merge_frame_witness :
    ((updateTicket [tk 1 ("a".data)] 1 { summary := some ("s".data) }).get
        ⟨0, by decide⟩ =
      applyPatch (tk 1 ("a".data)) { summary := some ("s".data) }) ∧
    (updateTicket [tk 2 ("a".data)] 1 { summary := some ("s".data) } =
      [tk 2 ("a".data)]) := by
  constructor
  · have h :=
      (c9_patch_merge_frame [tk 1 ("a".data)] 1
        { summary := some ("s".data) }).2.1 0 (by decide) (by decide)
    rw [h]
    decide
  · exact
      (c9_patch_merge_frame [tk 2 ("a".data)] 1
        { summary := some ("s".data) }).2.2.1 (by decide)

theorem applyPatch_id_of_none (t : Ticket) (p : TicketPatch) (h : p.id = none) :
    (applyPatch t p).id = t.id := by
  simp [applyPatch, h]

theorem find?_updateTicket (s : List Ticket) (id : Int) (p : TicketPatch)
    (hp : p.id = none) (t0 : Ticket)
    (h : s.find? (fun t => decide (t.id = id)) = some t0) :
    (updateTicket s id p).find? (fun t => decide (t.id = id)) =
      some (applyPatch t0 p) := by
  induction s with
  | nil => simp at h
  | cons a tl ih =>
    by_cases ha : a.id = id
    · have ht0 : a = t0 := by
        have hpos : List.find? (fun t => decide (t.id = id)) (a :: tl) =
            some a := List.find?_cons_of_pos tl (by simp [ha])
        rw [hpos] at h
        exact Option.some.inj h
      subst ht0
      show List.find? (fun t => decide (t.id = id))
        (List.map (fun t => if t.id = id then applyPatch t p else t)
          (a :: tl)) = some (applyPatch a p)
      simp only [List.map_cons, if_pos ha]
      exact List.find?_cons_of_pos _ (by simp [applyPatch_id_of_none a p hp, ha])
    · have h' : List.find? (fun t => decide (t.id = id)) tl = some t0 := by
        have hneg : List.find? (fun t => decide (t.id = id)) (a :: tl) =
            List.find? (fun t => decide (t.id = id)) tl :=
          List.find?_cons_of_neg tl (by simp [ha])
        rw [hneg] at h
        exact h
      show List.find? (fun t => decide (t.id = id))
        (List.map (fun t => if t.id = id then applyPatch t p else t)
          (a :: tl)) = some (applyPatch t0 p)
      simp only [List.map_cons, if_neg ha]
      have hstep : List.find? (fun t => decide (t.id = id))
          (a :: List.map (fun t => if t.id = id then applyPatch t p else t) tl) =
          List.find? (fun t => decide (t.id = id))
            (List.map (fun t => if t.id = id then applyPatch t p else t) tl) :=
        List.find?_cons_of_neg _ (by simp [ha])
      rw [hstep]
      exact ih h'

/-- C4: when the id resolves to a ticket in the store (whether looked up or
passed as an override snapshot), after `run(id)` completes the stored ticket
with that id has `stage = routed` and all four derived fields populated. -/
theorem c4_run_routed (s : List Ticket) (id : Int) (ov : Option Ticket)
    (t0 : Ticket) (h : s.find? (fun t => decide (t.id = id)) = some t0) :
    ((runPipeline s id ov).find? (fun t => decide (t.id = id))).isSome = true ∧
    ∀ t', (runPipeline s id ov).find? (fun t => decide (t.id = id)) = some t' →
      t'.stage = "routed".data ∧ t'.summary.isSome = true ∧
      t'.sentiment.isSome = true ∧ t'.urgency.isSome = true ∧
      t'.action.isSome = true := by
  obtain ⟨r, hr⟩ : ∃ r, resolveTicket s id ov = some r := by
    cases ov with
    | some t => exact ⟨t, rfl⟩
    | none => exact ⟨t0, h⟩
  have h1 := find?_updateTicket s id { stage := some ("summarized".data) }
    rfl t0 h
  have h2 := find?_updateTicket _ id { summary := some (summarize r.text) }
    rfl _ h1
  have h3 := find?_updateTicket _ id { stage := some ("sentiment".data) }
    rfl _ h2
  have h4 := find?_updateTicket _ id
    { sentiment := some (analyzeSentiment (summarize r.text)).1,
      urgency := some (analyzeSentiment (summarize r.text)).2 } rfl _ h3
  have h5 := find?_updateTicket _ id { stage := some ("routed".data) }
    rfl _ h4
  have h6 := find?_updateTicket _ id
    { action := some (routeDecision
        (some (analyzeSentiment (summarize r.text)).2)
        (some (analyzeSentiment (summarize r.text)).1)) } rfl _ h5
  have hrun : (runPipeline s id ov).find? (fun t => decide (t.id = id)) =
      some (applyPatch (applyPatch (applyPatch (applyPatch (applyPatch
        (applyPatch t0 { stage := some ("summarized".data) })
        { summary := some (summarize r.text) })
        { stage := some ("sentiment".data) })
        { sentiment := some (analyzeSentiment (summarize r.text)).1,
          urgency := some (analyzeSentiment (summarize r.text)).2 })
        { stage := some ("routed".data) })
        { action := some (routeDecision
            (some (analyzeSentiment (summarize r.text)).2)
            (some (analyzeSentiment (summarize r.text)).1)) }) := by
    unfold runPipeline
    rw [hr]
    exact h6
  refine ⟨by rw [hrun]; rfl, fun t' ht' => ?_⟩
  rw [hrun] at ht'
  injection ht' with ht''
  subst ht''
  refine ⟨?_, ?_, ?_, ?_, ?_⟩ <;> simp [applyPatch, mergeField]

theorem c4_run_routed_witness :
    ((runPipeline [tk 1 ("hello".data)] 1 none).find?
        (fun t => decide (t.id = 1))).isSome = true ∧
    ((processedTicket (tk 1 ("hello".data))).stage = "routed".data ∧
      (processedTicket (tk 1 ("hello".data))).summary.isSome = true ∧
      (processedTicket (tk 1 ("hello".data))).sentiment.isSome = true ∧
      (processedTicket (tk 1 ("hello".data))).urgency.isSome = true ∧
      (processedTicket (tk 1 ("hello".data))).action.isSome = true) :=
  ⟨(c4_run_routed [tk 1 ("hello".data)] 1 none (tk 1 ("hello".data))
      (by decide)).1,
   (c4_run_routed [tk 1 ("hello".data)] 1 none (tk 1 ("hello".data))
      (by decide)).2 (processedTicket (tk 1 ("hello".data))) (by decide)⟩

/-- The stage-marker values written by a sequence of patch events, in
order. -/
def stageWrites (tr : List (Int × TicketPatch)) : List (List Char) :=
  tr.filterMap (fun e => e.2.stage)

/-- Position of a stage marker in the pipeline's linear state machine
`uploaded -> summarized -> sentiment -> routed`. -/
def stageRank (s : List Char) : Nat :=
  if s = "uploaded".data then 0
  else if s = "summarized".data then 1
  else if s = "sentiment".data then 2
  else 3

theorem runPipeline_eq_foldl (s : List Ticket) (id : Int) (ov : Option Ticket)
    (ticket : Ticket) (hr : resolveTicket s id ov = some ticket) :
    runPipeline s id ov = (pipelineTrace ticket id).foldl applyEvt s := by
  unfold runPipeline
  rw [hr]
  rfl

/-- C8: a run on a resolvable ticket performs exactly the six patches of
`pipelineTrace`, applied to the store strictly in program order (the store
after the run is the left fold of the events); the stage markers written
are `summarized`, `sentiment`, `routed` in strictly increasing stage order
(never backward), and each marker write precedes the patch carrying the
corresponding stage result (summary after the `summarized` marker,
sentiment/urgency after the `sentiment` marker, action after the `routed`
marker). -/
theorem c8_stage_marker_order (s : List Ticket) (id : Int) (ov : Option Ticket)
    (ticket : Ticket) (hr : resolveTicket s id ov = some ticket) :
    runPipeline s id ov = (pipelineTrace ticket id).foldl applyEvt s ∧
    stageWrites (pipelineTrace ticket id) =
      ["summarized".data, "sentiment".data, "routed".data] ∧
    List.Chain' (fun a b => stageRank a < stageRank b)
      (stageWrites (pipelineTrace ticket id)) ∧
    ((pipelineTrace ticket id).get? 0).map (fun e => e.2.stage) =
      some (some ("summarized".data)) ∧
    ((pipelineTrace ticket id).get? 1).bind (fun e => e.2.summary) =
      some (summarize ticket.text) ∧
    ((pipelineTrace ticket id).get? 2).map (fun e => e.2.stage) =
      some (some ("sentiment".data)) ∧
    ((pipelineTrace ticket id).get? 3).bind (fun e => e.2.sentiment) =
      some (analyzeSentiment (summarize ticket.text)).1 ∧
    ((pipelineTrace ticket id).get? 3).bind (fun e => e.2.urgency) =
      some (analyzeSentiment (summarize ticket.text)).2 ∧
    ((pipelineTrace ticket id).get? 4).map (fun e => e.2.stage) =
      some (some ("routed".data)) ∧
    ((pipelineTrace ticket id).get? 5).bind (fun e => e.2.action) =
      some (routeDecision (some (analyzeSentiment (summarize ticket.text)).2)
        (some (analyzeSentiment (summarize ticket.text)).1)) := by
  refine ⟨runPipeline_eq_foldl s id ov ticket hr, rfl, ?_, rfl, rfl, rfl, rfl,
    rfl, rfl, rfl⟩
  have hsw : stageWrites (pipelineTrace ticket id) =
      ["summarized".data, "sentiment".data, "routed".data] := rfl
  rw [hsw]
  refine List.chain'_cons.2 ⟨by decide, List.chain'_cons.2 ⟨by decide, ?_⟩⟩
  simp

theorem c8_stage_marker_order_witness :
    runPipeline [tk 1 ("hi".data)] 1 none =
      (pipelineTrace (tk 1 ("hi".data)) 1).foldl applyEvt [tk 1 ("hi".data)] ∧
    stageWrites (pipelineTrace (tk 1 ("hi".data)) 1) =
      ["summarized".data, "sentiment".data, "routed".data] :=
  ⟨(c8_stage_marker_order [tk 1 ("hi".data)] 1 none (tk 1 ("hi".data))
      (by decide)).1,
   (c8_stage_marker_order [tk 1 ("hi".data)] 1 none (tk 1 ("hi".data))
      (by decide)).2.1⟩

theorem routeDecision_ne_nil (u s : Option (List Char)) :
    routeDecision u s ≠ [] := by
  unfold routeDecision
  split <;> decide

theorem processedTicket_summary (t : Ticket) :
    (processedTicket t).summary = some (summarize t.text) := rfl

theorem processedTicket_action (t : Ticket) :
    (processedTicket t).action =
      some (routeDecision
        (some (analyzeSentiment (summarize t.text)).2)
        (some (analyzeSentiment (summarize t.text)).1)) := rfl

/-- Supporting faithfulness fact: on a singleton store, one orchestrator run
leaves exactly the processed ticket. -/
theorem runPipeline_singleton (t : Ticket) :
    runPipeline [t] t.id none = [processedTicket t] := by
  have hid : ∀ (x : Ticket) (p : TicketPatch), p.id = none →
      updateTicket [x] t.id p =
        [if x.id = t.id then applyPatch x p else x] := by
    intro x p _
    rfl
  have hr : resolveTicket [t] t.id none = some t := by
    show List.find? (fun x => decide (x.id = t.id)) [t] = some t
    exact List.find?_cons_of_pos _ (by simp)
  unfold runPipeline
  rw [hr]
  show updateTicket _ t.id _ = _
  simp only [updateTicket, List.map_cons, List.map_nil]
  simp [applyPatch, mergeField, processedTicket, pipelineTrace, applyEvt]

/-- C1 as stated is false: a store in which every ticket has a completed
pipeline run can still make `runAll` invoke the orchestrator.  The store
holding exactly the completed run of a ticket with empty text has
`stage = routed`, a populated `action`, and `summary = some ""` — and the
empty-string summary is falsy, so `runAll` invokes the orchestrator for
ticket 1. -/
theorem c1_runAll_counterexample :
    (processedTicket (tk 1 [])).stage = "routed".data ∧
    (processedTicket (tk 1 [])).summary = some [] ∧
    (processedTicket (tk 1 [])).action.isSome = true ∧
    runAllInvokes [processedTicket (tk 1 [])] = [1] := by
  refine ⟨by decide, by decide, by decide, by decide⟩

/-- C1 amended: `runAll` after a completed run on every ticket invokes the
orchestrator for exactly the tickets whose computed summary is the empty
string (i.e. whose original text is empty or whitespace-only); when every
ticket's summary is nonempty, it is a no-op. -/
theorem c1_runAll_amended (s : List Ticket)
    (h : ∀ t ∈ s, ∃ t0, t = processedTicket t0 ∧ summarize t0.text ≠ []) :
    runAllInvokes s = [] := by
  unfold runAllInvokes
  have hfil : s.filter (fun t => isFalsyStr t.summary || isFalsyStr t.action)
      = [] := by
    rw [List.filter_eq_nil_iff]
    intro t ht
    obtain ⟨t0, rfl, hne⟩ := h t ht
    rw [processedTicket_summary, processedTicket_action]
    have h1 : (summarize t0.text).isEmpty = false := by
      cases hc : summarize t0.text with
      | nil => exact absurd hc hne
      | cons a l => rfl
    have h2 : (routeDecision
        (some (analyzeSentiment (summarize t0.text)).2)
        (some (analyzeSentiment (summarize t0.text)).1)).isEmpty = false := by
      cases hc : routeDecision
          (some (analyzeSentiment (summarize t0.text)).2)
          (some (analyzeSentiment (summarize t0.text)).1) with
      | nil => exact absurd hc (routeDecision_ne_nil _ _)
      | cons a l => rfl
    simp [isFalsyStr, h1, h2]
  rw [hfil]
  rfl

theorem c1_runAll_amended_witness :
    runAllInvokes [processedTicket (tk 1 ("hello".data))] = [] :=
  c1_runAll_amended [processedTicket (tk 1 ("hello".data))]
    (by
      intro t ht
      rw [List.mem_singleton] at ht
      exact ⟨tk 1 ("hello".data), ht, by decide⟩)

theorem collapseRuns_nil : collapseRuns [] = [] := by
  rw [collapseRuns]

theorem wsWords_nil : wsWords [] = [] := by
  rw [wsWords]

theorem collapseRuns_cons (c : Char) (cs : List Char) :
    collapseRuns (c :: cs) =
      if isWs c then ' ' :: collapseRuns (cs.dropWhile isWs)
      else c :: collapseRuns cs := by
  rw [collapseRuns]

theorem collapseRuns_cons_ws (c : Char) (cs : List Char) (h : isWs c = true) :
    collapseRuns (c :: cs) = ' ' :: collapseRuns (cs.dropWhile isWs) := by
  rw [collapseRuns_cons, if_pos h]

theorem collapseRuns_cons_not (c : Char) (cs : List Char) (h : isWs c = false) :
    collapseRuns (c :: cs) = c :: collapseRuns cs := by
  rw [collapseRuns_cons, if_neg (by simp [h])]

theorem wsWords_cons (c : Char) (cs : List Char) :
    wsWords (c :: cs) =
      if isWs c then wsWords cs
      else (c :: cs.takeWhile (fun x => !isWs x)) ::
        wsWords (cs.dropWhile (fun x => !isWs x)) := by
  rw [wsWords]

theorem wsWords_cons_ws (c : Char) (cs : List Char) (h : isWs c = true) :
    wsWords (c :: cs) = wsWords cs := by
  rw [wsWords_cons, if_pos h]

theorem wsWords_cons_not (c : Char) (cs : List Char) (h : isWs c = false) :
    wsWords (c :: cs) =
      (c :: cs.takeWhile (fun x => !isWs x)) ::
        wsWords (cs.dropWhile (fun x => !isWs x)) := by
  rw [wsWords_cons, if_neg (by simp [h])]

theorem collapseAux_true :
    ∀ cs : List Char, collapseAux true cs = collapseAux false (cs.dropWhile isWs)
  | [] => rfl
  | c :: cs => by
    cases hw : isWs c
    · simp [collapseAux, hw, List.dropWhile_cons]
    · simp only [collapseAux, hw, if_pos, List.dropWhile_cons_of_pos hw]
      exact collapseAux_true cs

theorem collapseWs_eq_runs (l : List Char) : collapseWs l = collapseRuns l := by
  have H : ∀ n (l : List Char), l.length ≤ n → collapseAux false l = collapseRuns l := by
    intro n
    induction n with
    | zero =>
      intro l hl
      rw [List.eq_nil_of_length_eq_zero (Nat.le_zero.1 hl), collapseRuns_nil]
      rfl
    | succ n ih =>
      intro l hl
      cases l with
      | nil => rw [collapseRuns_nil]; rfl
      | cons c cs =>
        have hcs : cs.length ≤ n := Nat.le_of_succ_le_succ hl
        cases hw : isWs c
        · rw [collapseRuns_cons_not c cs hw]
          simp only [collapseAux, hw]
          rw [ih cs hcs]
          simp
        · rw [collapseRuns_cons_ws c cs hw]
          simp only [collapseAux, hw, if_pos]
          rw [collapseAux_true cs,
            ih (cs.dropWhile isWs) (le_trans (len_dropWhile_le _ cs) hcs)]
          simp
  exact H l.length l (le_refl _)

theorem dropWhile_head_not {α : Type} (p : α → Bool) :
    ∀ (l : List α) (c : α) (cs : List α), l.dropWhile p = c :: cs → p c = false
  | [], _, _ => by intro h; simp at h
  | a :: tl, c, cs => by
    rw [List.dropWhile_cons]
    split
    · exact dropWhile_head_not p tl c cs
    · intro h
      injection h with h1 _
      subst h1
      simp_all

theorem dropWhile_eq_self_of_head {α : Type} (p : α → Bool) (l : List α)
    (h : ∀ c ∈ l, p c = false) : l.dropWhile p = l := by
  cases l with
  | nil => rfl
  | cons a tl =>
    exact List.dropWhile_cons_of_neg (by simp [h a (List.mem_cons_self a tl)])

theorem collapseRuns_word (w rest : List Char)
    (h : ∀ x ∈ w, isWs x = false) :
    collapseRuns (w ++ rest) = w ++ collapseRuns rest := by
  induction w with
  | nil => rfl
  | cons a tl ih =>
    rw [List.cons_append,
      collapseRuns_cons_not a _ (h a (List.mem_cons_self a tl)),
      ih (fun x hx => h x (List.mem_cons_of_mem a hx))]
    rfl

theorem trimEnd_of_all_not (w : List Char) (h : ∀ x ∈ w, isWs x = false) :
    trimEnd w = w := by
  unfold trimEnd
  rw [dropWhile_eq_self_of_head isWs w.reverse
    (fun c hc => h c (List.mem_reverse.1 hc))]
  exact List.reverse_reverse w

theorem trimEnd_append_space (w : List Char) (h : ∀ x ∈ w, isWs x = false) :
    trimEnd (w ++ [' ']) = w := by
  unfold trimEnd
  rw [List.reverse_append]
  show (List.dropWhile isWs (' ' :: w.reverse)).reverse = w
  rw [List.dropWhile_cons_of_pos (by decide),
    dropWhile_eq_self_of_head isWs w.reverse
      (fun c hc => h c (List.mem_reverse.1 hc))]
  exact List.reverse_reverse w

theorem trimEnd_append (a y : List Char) (h : ∃ x ∈ y, isWs x = false) :
    trimEnd (a ++ y) = a ++ trimEnd y := by
  unfold trimEnd
  rw [List.reverse_append, List.dropWhile_append]
  have hne : (y.reverse.dropWhile isWs).isEmpty = false := by
    rcases h with ⟨x, hx, hxw⟩
    rcases hd : y.reverse.dropWhile isWs with _ | ⟨c, cs⟩
    · rw [List.dropWhile_eq_nil_iff] at hd
      have := hd x (List.mem_reverse.2 hx)
      simp [hxw] at this
    · rfl
  rw [hne]
  simp only [Bool.false_eq_true, if_false]
  rw [List.reverse_append, List.reverse_reverse]

theorem wsWords_dropWhile :
    ∀ l : List Char, wsWords (l.dropWhile isWs) = wsWords l
  | [] => rfl
  | c :: cs => by
    cases hw : isWs c
    · rw [List.dropWhile_cons_of_neg (by simp [hw])]
    · rw [List.dropWhile_cons_of_pos hw, wsWords_cons_ws c cs hw]
      exact wsWords_dropWhile cs

theorem joinWords_cons_ne (w : List Char) (ws : List (List Char))
    (h : ws ≠ []) : joinWords (w :: ws) = w ++ ' ' :: joinWords ws := by
  cases ws with
  | nil => exact absurd rfl h
  | cons a tl => rfl

theorem trim_collapseRuns_eq_joinWords (l : List Char) :
    jsTrim (collapseRuns l) = joinWords (wsWords l) := by
  have H : ∀ n (l : List Char), l.length ≤ n →
      jsTrim (collapseRuns l) = joinWords (wsWords l) := by
    intro n
    induction n with
    | zero =>
      intro l hl
      rw [List.eq_nil_of_length_eq_zero (Nat.le_zero.1 hl), collapseRuns_nil,
        wsWords_nil]
      rfl
    | succ n ih =>
      intro l hl
      cases l with
      | nil =>
        rw [collapseRuns_nil, wsWords_nil]
        rfl
      | cons c cs =>
        have hcs : cs.length ≤ n := Nat.le_of_succ_le_succ hl
        cases hw : isWs c
        · -- head is not whitespace: peel off the leading word
          rw [wsWords_cons_not c cs hw]
          have hsplit : c :: cs =
              (c :: cs.takeWhile (fun x => !isWs x)) ++
                cs.dropWhile (fun x => !isWs x) := by
            rw [List.cons_append, List.takeWhile_append_dropWhile]
          have hwall : ∀ x ∈ c :: cs.takeWhile (fun x => !isWs x),
              isWs x = false := by
            intro x hx
            rcases List.mem_cons.1 hx with h1 | h2
            · subst h1; exact hw
            · have := List.mem_takeWhile_imp h2
              simpa using this
          rw [hsplit, collapseRuns_word _ _ hwall]
          have htrimStart : ∀ X : List Char,
              jsTrim ((c :: cs.takeWhile (fun x => !isWs x)) ++ X) =
                trimEnd ((c :: cs.takeWhile (fun x => !isWs x)) ++ X) := by
            intro X
            unfold jsTrim trimStart
            rw [List.cons_append, List.dropWhile_cons_of_neg (by simp [hw])]
          rw [htrimStart]
          rcases hrest : cs.dropWhile (fun x => !isWs x) with _ | ⟨r, rs⟩
          · rw [collapseRuns_nil, wsWords_nil, List.append_nil,
              trimEnd_of_all_not _ hwall]
            rfl
          · have hrw : isWs r = true := by
              have := dropWhile_head_not _ cs r rs hrest
              simpa using this
            rw [collapseRuns_cons_ws r rs hrw, wsWords_cons_ws r rs hrw]
            have hlen_rs : rs.length ≤ n := by
              have h1 : (r :: rs).length ≤ cs.length := by
                rw [← hrest]
                exact len_dropWhile_le _ cs
              simp only [List.length_cons] at h1
              omega
            rcases hrs : rs.dropWhile isWs with _ | ⟨d, ds⟩
            · rw [collapseRuns_nil]
              have hwsrs : wsWords rs = [] := by
                rw [← wsWords_dropWhile rs, hrs, wsWords_nil]
              rw [hwsrs, trimEnd_append_space _ hwall]
              rfl
            · have hd : isWs d = false := dropWhile_head_not _ rs d ds hrs
              have hY : ∃ x ∈ collapseRuns (d :: ds), isWs x = false := by
                rw [collapseRuns_cons_not d ds hd]
                exact ⟨d, List.mem_cons_self _ _, hd⟩
              have hassoc : (c :: cs.takeWhile (fun x => !isWs x)) ++
                  ' ' :: collapseRuns (d :: ds) =
                  ((c :: cs.takeWhile (fun x => !isWs x)) ++ [' ']) ++
                    collapseRuns (d :: ds) := by
                simp
              rw [hassoc, trimEnd_append _ _ hY]
              have hlen_dds : (d :: ds).length ≤ n := by
                have h1 : (d :: ds).length ≤ rs.length := by
                  rw [← hrs]
                  exact len_dropWhile_le _ rs
                exact Nat.le_trans h1 hlen_rs
              have htS : trimStart (collapseRuns (d :: ds)) =
                  collapseRuns (d :: ds) := by
                rw [collapseRuns_cons_not d ds hd]
                exact List.dropWhile_cons_of_neg (by simp [hd])
              have hIH := ih (d :: ds) hlen_dds
              unfold jsTrim at hIH
              rw [htS] at hIH
              rw [hIH]
              have hws_rs : wsWords rs = wsWords (d :: ds) := by
                rw [← wsWords_dropWhile rs, hrs]
              rw [hws_rs]
              have hne : wsWords (d :: ds) ≠ [] := by
                rw [wsWords_cons_not d ds hd]
                exact List.cons_ne_nil _ _
              rw [joinWords_cons_ne _ _ hne]
              simp
        · -- head is whitespace
          rw [collapseRuns_cons_ws c cs hw, wsWords_cons_ws c cs hw]
          have hskip : jsTrim (' ' :: collapseRuns (cs.dropWhile isWs)) =
              jsTrim (collapseRuns (cs.dropWhile isWs)) := by
            unfold jsTrim trimStart
            rw [List.dropWhile_cons_of_pos (by decide)]
          rw [hskip,
            ih (cs.dropWhile isWs) (Nat.le_trans (len_dropWhile_le _ cs) hcs),
            wsWords_dropWhile]
  exact H l.length l (le_refl _)

/-- The code's normalization equals the word-based normalization described
by the spec. -/
theorem normalizeWs_eq_spec (l : List Char) :
    normalizeWs l = specNormalize l := by
  unfold normalizeWs specNormalize
  rw [collapseWs_eq_runs]
  exact trim_collapseRuns_eq_joinWords l

/-- C5: the Summarizer normalizes its input exactly as the spec says —
collapsing every whitespace run to a single space and trimming the ends
(equivalently, joining the input's words with single spaces) — then, when
the normalized length exceeds 120, returns its first 120 characters plus
the ellipsis marker (output length 123), and otherwise returns the
normalized string unchanged; the output never exceeds 123 characters. -/
theorem c5_summarizer_contract (t : List Char) :
    normalizeWs t = specNormalize t ∧
    (120 < (specNormalize t).length →
      summarize t = (specNormalize t).take 120 ++ dots ∧
      (summarize t).length = 123) ∧
    ((specNormalize t).length ≤ 120 → summarize t = specNormalize t) ∧
    (summarize t).length ≤ 123 := by
  have heq := normalizeWs_eq_spec t
  have hbody : summarize t =
      if 120 < (specNormalize t).length then (specNormalize t).take 120 ++ dots
      else specNormalize t := by
    show (if 120 < (normalizeWs t).length then (normalizeWs t).take 120 ++ dots
      else normalizeWs t) =
      if 120 < (specNormalize t).length then (specNormalize t).take 120 ++ dots
      else specNormalize t
    rw [heq]
  refine ⟨heq, ?_, ?_, ?_⟩
  · intro h
    have hs : summarize t = (specNormalize t).take 120 ++ dots := by
      rw [hbody, if_pos h]
    refine ⟨hs, ?_⟩
    rw [hs, List.length_append, List.length_take,
      Nat.min_eq_left (le_of_lt h)]
    rfl
  · intro h
    rw [hbody, if_neg (by omega)]
  · by_cases h : 120 < (specNormalize t).length
    · rw [hbody, if_pos h, List.length_append, List.length_take,
        Nat.min_eq_left (le_of_lt h)]
      exact le_refl _
    · rw [hbody, if_neg h]
      omega

set_option maxRecDepth 40000 in
theorem c5_summarizer_contract_witness :
    summarize ("a b".data) = specNormalize ("a b".data) ∧
    summarize (List.replicate 130 ('a')) =
      (specNormalize (List.replicate 130 ('a'))).take 120 ++ dots :=
  ⟨(c5_summarizer_contract ("a b".data)).2.2.1
      (by rw [← normalizeWs_eq_spec]; decide),
   ((c5_summarizer_contract (List.replicate 130 ('a'))).2.1
      (by rw [← normalizeWs_eq_spec]; decide)).1⟩

/-- Normal-form property: every whitespace character is a plain space. -/
def NormSp (z : List Char) : Prop := ∀ c ∈ z, isWs c = true → c = ' '

/-- Normal-form property: no two adjacent whitespace characters. -/
def NormCh (z : List Char) : Prop :=
  z.Chain' (fun a b => ¬(isWs a = true ∧ isWs b = true))

/-- Normal-form property: no leading whitespace. -/
def NormHd (z : List Char) : Prop := ∀ c, z.head? = some c → isWs c = false

/-- Normal-form property: no trailing whitespace. -/
def NormLa (z : List Char) : Prop := ∀ c, z.getLast? = some c → isWs c = false

theorem head?_mem_of {α : Type} (l : List α) (a : α) (h : l.head? = some a) :
    a ∈ l := by
  cases l with
  | nil => simp at h
  | cons b tl =>
    injection h with h1
    rw [← h1]
    exact List.mem_cons_self b tl

theorem getLast?_mem_of {α : Type} (l : List α) (a : α)
    (h : l.getLast? = some a) : a ∈ l := by
  rw [List.getLast?_eq_head?_reverse] at h
  exact List.mem_reverse.1 (head?_mem_of l.reverse a h)

theorem chain_of_all_not (z : List Char) (h : ∀ c ∈ z, isWs c = false) :
    NormCh z := by
  induction z with
  | nil => exact List.chain'_nil
  | cons a tl ih =>
    refine List.chain'_cons'.2 ⟨?_, ih (fun c hc => h c (List.mem_cons_of_mem a hc))⟩
    intro y _
    rintro ⟨ha, _⟩
    rw [h a (List.mem_cons_self a tl)] at ha
    cases ha

theorem wsWords_good (l : List Char) :
    ∀ w ∈ wsWords l, w ≠ [] ∧ ∀ c ∈ w, isWs c = false := by
  have H : ∀ n (l : List Char), l.length ≤ n →
      ∀ w ∈ wsWords l, w ≠ [] ∧ ∀ c ∈ w, isWs c = false := by
    intro n
    induction n with
    | zero =>
      intro l hl
      rw [List.eq_nil_of_length_eq_zero (Nat.le_zero.1 hl), wsWords_nil]
      intro w hw
      exact absurd hw (List.not_mem_nil w)
    | succ n ih =>
      intro l hl
      cases l with
      | nil =>
        rw [wsWords_nil]
        intro w hw
        exact absurd hw (List.not_mem_nil w)
      | cons c cs =>
        have hcs : cs.length ≤ n := Nat.le_of_succ_le_succ hl
        cases hw : isWs c
        · rw [wsWords_cons_not c cs hw]
          intro w hmem
          rcases List.mem_cons.1 hmem with h1 | h2
          · subst h1
            refine ⟨List.cons_ne_nil _ _, ?_⟩
            intro x hx
            rcases List.mem_cons.1 hx with hx1 | hx2
            · subst hx1; exact hw
            · have := List.mem_takeWhile_imp hx2
              simpa using this
          · exact ih (cs.dropWhile (fun x => !isWs x))
              (Nat.le_trans (len_dropWhile_le _ cs) hcs) w h2
        · rw [wsWords_cons_ws c cs hw]
          exact ih cs hcs
  exact H l.length l (le_refl _)

theorem joinWords_ne_nil (ws : List (List Char)) (hne : ws ≠ [])
    (h : ∀ w ∈ ws, w ≠ []) : joinWords ws ≠ [] := by
  cases ws with
  | nil => exact absurd rfl hne
  | cons w tl =>
    cases tl with
    | nil =>
      exact h w (List.mem_cons_self _ _)
    | cons a t2 =>
      show w ++ ' ' :: joinWords (a :: t2) ≠ []
      rcases hw : w with _ | ⟨b, bt⟩
      · exact absurd hw (h w (List.mem_cons_self _ _))
      · simp

theorem joinWords_norm :
    ∀ ws : List (List Char),
      (∀ w ∈ ws, w ≠ [] ∧ ∀ c ∈ w, isWs c = false) →
      NormSp (joinWords ws) ∧ NormCh (joinWords ws) ∧ NormHd (joinWords ws) ∧
        NormLa (joinWords ws)
  | [], _ => by
    refine ⟨?_, List.chain'_nil, ?_, ?_⟩
    · intro c hc
      exact absurd hc (List.not_mem_nil c)
    · intro c hc
      simp [joinWords] at hc
    · intro c hc
      simp [joinWords] at hc
  | [w], h => by
    have hw := h w (List.mem_cons_self w [])
    show NormSp w ∧ NormCh w ∧ NormHd w ∧ NormLa w
    refine ⟨?_, chain_of_all_not w hw.2, ?_, ?_⟩
    · intro c hc hws
      rw [hw.2 c hc] at hws
      cases hws
    · intro c hc
      exact hw.2 c (head?_mem_of w c hc)
    · intro c hc
      exact hw.2 c (getLast?_mem_of w c hc)
  | w :: a :: t2, h => by
    have hw := h w (List.mem_cons_self _ _)
    have htl : ∀ v ∈ a :: t2, v ≠ [] ∧ ∀ c ∈ v, isWs c = false :=
      fun v hv => h v (List.mem_cons_of_mem w hv)
    have hIH := joinWords_norm (a :: t2) htl
    have hJne : joinWords (a :: t2) ≠ [] :=
      joinWords_ne_nil _ (List.cons_ne_nil _ _) (fun v hv => (htl v hv).1)
    show NormSp (w ++ ' ' :: joinWords (a :: t2)) ∧
      NormCh (w ++ ' ' :: joinWords (a :: t2)) ∧
      NormHd (w ++ ' ' :: joinWords (a :: t2)) ∧
      NormLa (w ++ ' ' :: joinWords (a :: t2))
    refine ⟨?_, ?_, ?_, ?_⟩
    · intro c hc hwc
      rcases List.mem_append.1 hc with h1 | h2
      · rw [hw.2 c h1] at hwc
        cases hwc
      · rcases List.mem_cons.1 h2 with h3 | h4
        · exact h3
        · exact hIH.1 c h4 hwc
    · refine List.chain'_append.2 ⟨chain_of_all_not w hw.2, ?_, ?_⟩
      · refine List.chain'_cons'.2 ⟨?_, hIH.2.1⟩
        intro y hy
        rintro ⟨_, hcon⟩
        rw [Option.mem_def] at hy
        rw [hIH.2.2.1 y hy] at hcon
        cases hcon
      · intro x hx y hy
        have hy' : y = ' ' := by
          rw [Option.mem_def, List.head?_cons] at hy
          injection hy with h1
          exact h1.symm
        subst hy'
        rintro ⟨hcon, _⟩
        rw [Option.mem_def] at hx
        rw [hw.2 x (getLast?_mem_of w x hx)] at hcon
        cases hcon
    · intro c hc
      cases hwpat : w with
      | nil => exact absurd hwpat hw.1
      | cons b bt =>
        rw [hwpat, List.cons_append, List.head?_cons] at hc
        injection hc with h1
        rw [← h1]
        exact hw.2 b (by rw [hwpat]; exact List.mem_cons_self b bt)
    · intro c hc
      rw [List.getLast?_append_of_ne_nil _ (List.cons_ne_nil _ _)] at hc
      cases hJ : joinWords (a :: t2) with
      | nil => exact absurd hJ hJne
      | cons j jt =>
        rw [hJ, List.getLast?_cons_cons] at hc
        exact hIH.2.2.2 c (by rw [hJ]; exact hc)

theorem joinWords_wsWords_fix (z : List Char) (hsp : NormSp z) (hch : NormCh z)
    (hhd : NormHd z) (hla : NormLa z) : joinWords (wsWords z) = z := by
  have H : ∀ n (z : List Char), z.length ≤ n → NormSp z → NormCh z →
      NormHd z → NormLa z → joinWords (wsWords z) = z := by
    intro n
    induction n with
    | zero =>
      intro z hl _ _ _ _
      rw [List.eq_nil_of_length_eq_zero (Nat.le_zero.1 hl), wsWords_nil]
      rfl
    | succ n ih =>
      intro z hl hsp hch hhd hla
      cases z with
      | nil =>
        rw [wsWords_nil]
        rfl
      | cons c cs =>
        have hc : isWs c = false := hhd c rfl
        rw [wsWords_cons_not c cs hc]
        rcases hrest : cs.dropWhile (fun x => !isWs x) with _ | ⟨r, rs⟩
        · have hcs_eq : cs.takeWhile (fun x => !isWs x) = cs := by
            have h0 := List.takeWhile_append_dropWhile
              (p := fun x => !isWs x) (l := cs)
            rw [hrest, List.append_nil] at h0
            exact h0
          rw [wsWords_nil]
          have h1 : joinWords [c :: cs.takeWhile (fun x => !isWs x)] =
              c :: cs.takeWhile (fun x => !isWs x) := rfl
          rw [h1, hcs_eq]
        · have hrw : isWs r = true := by
            have := dropWhile_head_not _ cs r rs hrest
            simpa using this
          have hsplit : c :: cs =
              (c :: cs.takeWhile (fun x => !isWs x)) ++ r :: rs := by
            rw [List.cons_append, ← hrest, List.takeWhile_append_dropWhile]
          have hrsp : r = ' ' := by
            refine hsp r ?_ hrw
            rw [hsplit]
            exact List.mem_append.2 (Or.inr (List.mem_cons_self _ _))
          cases rs with
          | nil =>
            exfalso
            have hlast : (c :: cs).getLast? = some r := by
              rw [hsplit]
              exact List.getLast?_concat _
            have h2 := hla r hlast
            rw [hrw] at h2
            cases h2
          | cons d ds =>
            have hchz : List.Chain'
                (fun a b => ¬(isWs a = true ∧ isWs b = true)) (r :: d :: ds) :=
              (List.chain'_append.1 (by rw [← hsplit]; exact hch)).2.1
            have hd : isWs d = false := by
              have h3 := (List.chain'_cons'.1 hchz).1 d rfl
              by_contra hcon
              rw [Bool.not_eq_false] at hcon
              exact h3 ⟨hrw, hcon⟩
            have hmem_sub : ∀ x ∈ d :: ds, x ∈ c :: cs := by
              intro x hx
              rw [hsplit]
              exact List.mem_append.2 (Or.inr (List.mem_cons_of_mem r hx))
            have hlen : (d :: ds).length ≤ n := by
              have h4 := hl
              rw [hsplit, List.length_append] at h4
              simp only [List.length_cons] at h4 ⊢
              omega
            have hch_dds : NormCh (d :: ds) := (List.chain'_cons'.1 hchz).2
            have hsp_dds : NormSp (d :: ds) :=
              fun x hx hxw => hsp x (hmem_sub x hx) hxw
            have hhd_dds : NormHd (d :: ds) := by
              intro x hx
              rw [List.head?_cons] at hx
              injection hx with h5
              rw [← h5]
              exact hd
            have hla_dds : NormLa (d :: ds) := by
              intro x hx
              apply hla x
              rw [hsplit,
                List.getLast?_append_of_ne_nil _ (List.cons_ne_nil _ _),
                List.getLast?_cons_cons]
              exact hx
            have hIH := ih (d :: ds) hlen hsp_dds hch_dds hhd_dds hla_dds
            rw [wsWords_cons_ws _ _ hrw]
            have hne : wsWords (d :: ds) ≠ [] := by
              rw [wsWords_cons_not d ds hd]
              exact List.cons_ne_nil _ _
            rw [joinWords_cons_ne _ _ hne, hIH, hsplit, hrsp]
  exact H z.length z (le_refl _) hsp hch hhd hla

theorem summarize_eq_spec_branch (t : List Char) :
    summarize t =
      if 120 < (specNormalize t).length then (specNormalize t).take 120 ++ dots
      else specNormalize t := by
  have heq := normalizeWs_eq_spec t
  show (if 120 < (normalizeWs t).length then (normalizeWs t).take 120 ++ dots
    else normalizeWs t) =
    if 120 < (specNormalize t).length then (specNormalize t).take 120 ++ dots
    else specNormalize t
  rw [heq]

/-- C6: the Summarizer is idempotent — applying it to its own output
returns that output unchanged (both when the output is the normalized
string and when it is a 123-character truncation, which re-truncates to
itself). -/
theorem c6_summarize_idempotent (t : List Char) :
    summarize (summarize t) = summarize t := by
  obtain ⟨hsp, hch, hhd, hla⟩ :
      NormSp (specNormalize t) ∧ NormCh (specNormalize t) ∧
        NormHd (specNormalize t) ∧ NormLa (specNormalize t) :=
    joinWords_norm (wsWords t) (wsWords_good t)
  have hbody := summarize_eq_spec_branch t
  by_cases h : 120 < (specNormalize t).length
  · have hsum : summarize t = (specNormalize t).take 120 ++ dots := by
      rw [hbody, if_pos h]
    rw [hsum]
    have htk_sub : ∀ c ∈ (specNormalize t).take 120, c ∈ specNormalize t :=
      fun c hc => List.take_subset _ _ hc
    have hysp : NormSp ((specNormalize t).take 120 ++ dots) := by
      intro c hc hwc
      rcases List.mem_append.1 hc with h1 | h2
      · exact hsp c (htk_sub c h1) hwc
      · have hcd : c = '.' := by simpa [dots] using h2
        rw [hcd] at hwc
        exact absurd hwc (by decide)
    have hych : NormCh ((specNormalize t).take 120 ++ dots) := by
      refine List.chain'_append.2 ⟨?_, ?_, ?_⟩
      · have hsplit2 : specNormalize t =
            (specNormalize t).take 120 ++ (specNormalize t).drop 120 :=
          (List.take_append_drop 120 (specNormalize t)).symm
        exact (List.chain'_append.1 (hsplit2 ▸ hch)).1
      · refine List.chain'_cons'.2 ⟨?_, List.chain'_cons'.2
          ⟨?_, List.chain'_singleton _⟩⟩
        · intro y _
          rintro ⟨h1, _⟩
          exact absurd h1 (by decide)
        · intro y _
          rintro ⟨h1, _⟩
          exact absurd h1 (by decide)
      · intro x _ y hy
        have hy' : y = '.' := by
          rw [Option.mem_def] at hy
          have hdots : dots.head? = some ('.') := rfl
          rw [hdots] at hy
          injection hy with h1
          exact h1.symm
        rw [hy']
        rintro ⟨_, h2⟩
        exact absurd h2 (by decide)
    have hyhd : NormHd ((specNormalize t).take 120 ++ dots) := by
      intro c hc
      cases hnf_pat : specNormalize t with
      | nil => rw [hnf_pat] at h; simp at h
      | cons e es =>
        have htake : (specNormalize t).take 120 = e :: es.take 119 := by
          rw [hnf_pat]
          rfl
        rw [htake, List.cons_append, List.head?_cons] at hc
        injection hc with h1
        rw [← h1]
        exact hhd e (by rw [hnf_pat]; rfl)
    have hyla : NormLa ((specNormalize t).take 120 ++ dots) := by
      intro c hc
      rw [List.getLast?_append_of_ne_nil _ (by simp [dots])] at hc
      have hdots : dots.getLast? = some ('.') := rfl
      rw [hdots] at hc
      injection hc with h1
      rw [← h1]
      decide
    have hyfix : specNormalize ((specNormalize t).take 120 ++ dots) =
        (specNormalize t).take 120 ++ dots :=
      joinWords_wsWords_fix _ hysp hych hyhd hyla
    have hylen : ((specNormalize t).take 120 ++ dots).length = 123 := by
      rw [List.length_append, List.length_take,
        Nat.min_eq_left (le_of_lt h)]
      rfl
    rw [summarize_eq_spec_branch ((specNormalize t).take 120 ++ dots), hyfix,
      if_pos (by rw [hylen]; omega)]
    have h120 : ((specNormalize t).take 120).length = 120 := by
      rw [List.length_take]
      exact Nat.min_eq_left (le_of_lt h)
    rw [List.take_left' h120]
  · have hsum : summarize t = specNormalize t := by
      rw [hbody, if_neg h]
    rw [hsum]
    have hfix : specNormalize (specNormalize t) = specNormalize t :=
      joinWords_wsWords_fix _ hsp hch hhd hla
    rw [summarize_eq_spec_branch (specNormalize t), hfix, if_neg h]
